import Mathlib

/-! Verification development for the Journeyman compliance-service core:
the field-level encryption subsystem (`utils/encryption.py`) and the
retention-expiry policy engine (`utils/data_retention.py`).

Modelling conventions:
- Python strings and byte strings are modelled as lists of natural numbers
  (their UTF-8 code units); a well-formed byte is a `Nat` below 256.
- Python `datetime` values and `timedelta` values are modelled as `Int`
  numbers of seconds; `timedelta(days = n)` becomes `n * 86400`.
- The impure clock `datetime.utcnow()` becomes an explicit `now` argument.
- Exceptions become `Except` results; `raise ValueError` in the constructor
  becomes `Except.error ConfigurationError.missingKey`, and the Fernet
  `InvalidToken` authentication failure becomes
  `Except.error DecryptionError.invalidToken`.
- The third-party `cryptography` primitives (AES-128-CBC, HMAC-SHA256)
  are not part of this repository; they enter the model as an abstract
  `CipherPrims` bundle carrying exactly their documented functional
  contract, while the Fernet token layout, PKCS7 padding, PBKDF2 loop and
  url-safe base64 coding are implemented concretely. -/

namespace Journeyman

/-! ### Definitions: data retention (`src/utils/data_retention.py`), url-safe
base64, PKCS7 padding, the Fernet token scheme, PBKDF2 key derivation and
`DataEncryption` (`src/journeyman/backend-python/utils/encryption.py`) -/


/-- A byte string: each element is intended to lie below 256. -/
abbrev Bytes := List Nat

/-- The `DataCategory` enum of `data_retention.py`. -/
inductive DataCategory where
  | user_profile
  | activity_logs
  | financial_records
  | marketing_data
  | temporary_data
  | archived_data
  deriving DecidableEq, Repr

/-- One day of `timedelta(days = n)`, in seconds. -/
def timedeltaDays (d : Nat) : Int := (d : Int) * 86400

/-- The static `RetentionPolicy.RETENTION_PERIODS` dictionary: `none` for a
category absent from the dict (`archived_data` is the only such category). -/
def RETENTION_PERIODS : DataCategory → Option Int
  | .user_profile => some (timedeltaDays (7 * 365))
  | .activity_logs => some (timedeltaDays 90)
  | .financial_records => some (timedeltaDays (7 * 365))
  | .marketing_data => some (timedeltaDays (2 * 365))
  | .temporary_data => some (timedeltaDays 30)
  | .archived_data => none

/-- `RetentionPolicy.get_retention_period`: dictionary lookup with the
default `timedelta(days = 365)`. -/
def get_retention_period (category : DataCategory) : Int :=
  (RETENTION_PERIODS category).getD (timedeltaDays 365)

/-- `RetentionPolicy.is_expired`: `datetime.utcnow() > created_at +
retention_period`, with the clock passed explicitly as `now`. -/
def is_expired (created_at : Int) (category : DataCategory) (now : Int) : Bool :=
  now > created_at + get_retention_period category

/-- An entry of `DataRetentionManager.deletion_log`. -/
structure DeletionLogEntry where
  record_id : Nat
  category : DataCategory
  deleted_at : Int
  deriving DecidableEq, Repr

/-- The mutable state of a `DataRetentionManager` instance. -/
structure DataRetentionManager where
  deletion_log : List DeletionLogEntry
  deriving DecidableEq, Repr

/-- `DataRetentionManager.scan_expired_data`: the source returns the empty
list (`expired_records = []`, the database query is a stub). -/
def scan_expired_data (_m : DataRetentionManager) (_category : DataCategory) :
    List Nat := []

/-- `DataRetentionManager.delete_expired_data`, in state-passing form: the
returned pair is the manager state after the call and the returned count.
The dry-run branch returns the match count without touching state; the
real branch appends one `deletion_log` entry per deleted record. -/
def delete_expired_data (m : DataRetentionManager) (category : DataCategory)
    (now : Int) (dry_run : Bool) : DataRetentionManager × Nat :=
  let expired := scan_expired_data m category
  if dry_run then (m, expired.length)
  else
    expired.foldl
      (fun st rid =>
        ({ deletion_log := st.1.deletion_log ++ [⟨rid, category, now⟩] }, st.2 + 1))
      (m, 0)

/-- ASCII code of the url-safe base64 alphabet character for a 6-bit
value (`A-Z a-z 0-9 - _`). -/
def b64char (n : Nat) : Nat :=
  if n < 26 then 65 + n
  else if n < 52 then 97 + (n - 26)
  else if n < 62 then 48 + (n - 52)
  else if n = 62 then 45
  else 95

/-- six-bit value of a url-safe base64 alphabet character. -/
def b64val (c : Nat) : Nat :=
  if 65 ≤ c ∧ c ≤ 90 then c - 65
  else if 97 ≤ c ∧ c ≤ 122 then 26 + (c - 97)
  else if 48 ≤ c ∧ c ≤ 57 then 52 + (c - 48)
  else if c = 45 then 62
  else 63

/-- Url-safe base64 encoding of a byte string, produced as the list of
ASCII codes of the encoded characters (the pad character `=` is 61). -/
def encodeB64 : Bytes → Bytes
  | [] => []
  | [a] => [b64char (a / 4), b64char (a % 4 * 16), 61, 61]
  | [a, b] => [b64char (a / 4), b64char (a % 4 * 16 + b / 16), b64char (b % 16 * 4), 61]
  | a :: b :: c :: rest =>
      b64char (a / 4) :: b64char (a % 4 * 16 + b / 16) ::
        b64char (b % 16 * 4 + c / 64) :: b64char (c % 64) :: encodeB64 rest

/-- Url-safe base64 decoding of a canonically padded encoding, as produced
by `encodeB64`; malformed input decodes to whatever bytes fall out, as
`base64.urlsafe_b64decode` is permissive about non-canonical input. -/
def decodeB64 : Bytes → Bytes
  | c1 :: c2 :: c3 :: c4 :: rest =>
      if c3 = 61 then [b64val c1 * 4 + b64val c2 / 16]
      else if c4 = 61 then
        [b64val c1 * 4 + b64val c2 / 16, b64val c2 % 16 * 16 + b64val c3 / 4]
      else
        (b64val c1 * 4 + b64val c2 / 16) :: (b64val c2 % 16 * 16 + b64val c3 / 4) ::
          (b64val c3 % 4 * 64 + b64val c4) :: decodeB64 rest
  | _ => []

/-- PKCS7 padding to 16-byte blocks, as applied inside Fernet before
AES-CBC encryption. -/
def pad16 (msg : Bytes) : Bytes :=
  msg ++ List.replicate (16 - msg.length % 16) (16 - msg.length % 16)

/-- PKCS7 unpadding: the last byte gives the pad length, and every pad
byte must equal it; otherwise the padding is invalid. -/
def unpad16 (p : Bytes) : Option Bytes :=
  match p.getLast? with
  | none => none
  | some n =>
      if 1 ≤ n ∧ n ≤ 16 ∧ n ≤ p.length ∧ ∀ b ∈ p.drop (p.length - n), b = n
      then some (p.take (p.length - n))
      else none

/-- Big-endian 8-byte encoding of the Fernet timestamp field. -/
def intToBe8 (n : Nat) : Bytes :=
  [n / 2 ^ 56 % 256, n / 2 ^ 48 % 256, n / 2 ^ 40 % 256, n / 2 ^ 32 % 256,
   n / 2 ^ 24 % 256, n / 2 ^ 16 % 256, n / 2 ^ 8 % 256, n % 256]

/-- Contract of the third-party primitives: `hmacSha256 key msg` is a
deterministic keyed function returning 32 well-formed bytes, and
`aesCbcEnc key iv paddedMsg` / `aesCbcDec key iv ct` are length-preserving
byte-valued functions inverse to one another for every key and
initialization vector. -/
structure CipherPrims where
  hmacSha256 : Bytes → Bytes → Bytes
  hmac_length : ∀ k m, (hmacSha256 k m).length = 32
  hmac_lt : ∀ k m, ∀ b ∈ hmacSha256 k m, b < 256
  aesCbcEnc : Bytes → Bytes → Bytes → Bytes
  aesCbcDec : Bytes → Bytes → Bytes → Bytes
  aes_dec_enc : ∀ k iv p, aesCbcDec k iv (aesCbcEnc k iv p) = p
  aes_enc_length : ∀ k iv p, (aesCbcEnc k iv p).length = p.length
  aes_enc_lt : ∀ k iv p, (∀ b ∈ p, b < 256) → ∀ b ∈ aesCbcEnc k iv p, b < 256

/-- The constructor failure of `DataEncryption.__init__` (`ValueError`
when no key material is available), the spec's `ConfigurationError`. -/
inductive ConfigurationError where
  | missingKey
  deriving DecidableEq, Repr

/-- The Fernet `InvalidToken` authentication failure, the spec's
`DecryptionError`. -/
inductive DecryptionError where
  | invalidToken
  deriving DecidableEq, Repr

/-- A Fernet cipher: the 32 bytes of key material split into a 16-byte
signing key and a 16-byte encryption key. -/
structure Fernet where
  signKey : Bytes
  encKey : Bytes
  deriving DecidableEq, Repr

/-- `Fernet(key)`: the url-safe-base64 key material is decoded and split. -/
def Fernet.ofKey (keyB64 : Bytes) : Fernet :=
  ⟨(decodeB64 keyB64).take 16, (decodeB64 keyB64).drop 16⟩

/-- The Fernet token for message `msg`: the byte string
`0x80 || ts (8 bytes big-endian) || iv (16 bytes) || AES-CBC(encKey, iv,
pkcs7(msg)) || HMAC-SHA256(signKey, everything before the tag)`, url-safe
base64 encoded. The per-call random nonce `iv` and the clock reading `ts`,
impure in the library, are explicit arguments. -/
def Fernet.encryptAt (prims : CipherPrims) (f : Fernet) (ts : Nat) (iv : Bytes)
    (msg : Bytes) : Bytes :=
  let ct := prims.aesCbcEnc f.encKey iv (pad16 msg)
  let core := 128 :: (intToBe8 ts ++ (iv ++ ct))
  encodeB64 (core ++ prims.hmacSha256 f.signKey core)

/-- Fernet token verification and decryption: the token must be long
enough, start with the version byte `0x80`, and carry an HMAC tag equal to
the tag recomputed over everything before it; only then is the payload
CBC-decrypted and PKCS7-unpadded. Any failure is the `InvalidToken`
authentication error, surfaced here as `none`. -/
def Fernet.decrypt? (prims : CipherPrims) (f : Fernet) (token : Bytes) :
    Option Bytes :=
  let data := decodeB64 token
  if 57 ≤ data.length ∧ data.head? = some 128 ∧
      data.drop (data.length - 32)
        = prims.hmacSha256 f.signKey (data.take (data.length - 32))
  then unpad16 (prims.aesCbcDec f.encKey ((data.drop 9).take 16)
        ((data.drop 25).take (data.length - 57)))
  else none

/-- The PBKDF2 U-sequence: `U 0 = PRF(password, salt || INT_BE32(1))` and
`U (j+1) = PRF(password, U j)`. -/
def pbkdf2U (prf : Bytes → Bytes → Bytes) (password salt : Bytes) : Nat → Bytes
  | 0 => prf password (salt ++ [0, 0, 0, 1])
  | j + 1 => prf password (pbkdf2U prf password salt j)

/-- Byte-wise XOR of two byte strings. -/
def xorBytes (a b : Bytes) : Bytes := List.zipWith (fun x y => x ^^^ y) a b

/-- PBKDF2 for a derived-key length of at most one 32-byte hash block (the
configuration used here is exactly 32): the first block is the XOR of the
`c` iterated PRF values, truncated to `dkLen`. -/
def pbkdf2 (prf : Bytes → Bytes → Bytes) (password salt : Bytes)
    (c dkLen : Nat) : Bytes :=
  ((List.range c).foldl (fun acc j => xorBytes acc (pbkdf2U prf password salt j))
    (List.replicate 32 0)).take dkLen

/-- The fixed application-wide salt constant `b'journeyman_salt'`. -/
def journeymanSalt : Bytes :=
  [106, 111, 117, 114, 110, 101, 121, 109, 97, 110, 95, 115, 97, 108, 116]

/-- The key derivation performed by `DataEncryption.__init__`:
PBKDF2-HMAC-SHA256 over the passphrase with the fixed salt, 100000
iterations, a 32-byte derived key, then `base64.urlsafe_b64encode`. -/
def deriveFernetKey (prims : CipherPrims) (passphrase : Bytes) : Bytes :=
  encodeB64 (pbkdf2 prims.hmacSha256 passphrase journeymanSalt 100000 32)

/-- The state of a constructed `DataEncryption` instance: `self.key` (the
passphrase bytes actually chosen) and the derived Fernet key handed to
`Fernet(...)` as `self.cipher`. -/
structure DataEncryption where
  key : Bytes
  fernetKey : Bytes
  deriving DecidableEq, Repr

/-- `DataEncryption.__init__(encryption_key)`: a truthy (present and
non-empty) explicit argument is used as `self.key`; otherwise
`os.environ.get('ENCRYPTION_KEY', '')`; if the result is empty the
constructor raises before any cipher exists. -/
def DataEncryption.init (prims : CipherPrims) (encryption_key : Option Bytes)
    (env_ENCRYPTION_KEY : Option Bytes) : Except ConfigurationError DataEncryption :=
  let key : Bytes :=
    match encryption_key with
    | some k => if k.isEmpty then env_ENCRYPTION_KEY.getD [] else k
    | none => env_ENCRYPTION_KEY.getD []
  if key.isEmpty then .error .missingKey
  else .ok ⟨key, deriveFernetKey prims key⟩

/-- `DataEncryption.encrypt`: empty plaintext short-circuits to the empty
string; otherwise the Fernet token under the instance's derived key. -/
def DataEncryption.encrypt (prims : CipherPrims) (d : DataEncryption) (ts : Nat)
    (iv plaintext : Bytes) : Bytes :=
  if plaintext.isEmpty then []
  else Fernet.encryptAt prims (Fernet.ofKey d.fernetKey) ts iv plaintext

/-- `DataEncryption.decrypt`: empty ciphertext short-circuits to the empty
string; otherwise Fernet decryption, with the `InvalidToken` authentication
failure surfaced as the spec's `DecryptionError`. -/
def DataEncryption.decrypt (prims : CipherPrims) (d : DataEncryption)
    (ciphertext : Bytes) : Except DecryptionError Bytes :=
  if ciphertext.isEmpty then .ok []
  else
    match Fernet.decrypt? prims (Fernet.ofKey d.fernetKey) ciphertext with
    | some msg => .ok msg
    | none => .error .invalidToken

/-- The authentication condition of Fernet decryption: a well-formed
token whose embedded tag equals the tag recomputed under the signing key.
A token produced under a different key, or a tampered token, is exactly
one that fails this check. -/
def fernetTokenAuthenticates (prims : CipherPrims) (f : Fernet) (token : Bytes) : Prop :=
  57 ≤ (decodeB64 token).length ∧ (decodeB64 token).head? = some 128 ∧
    (decodeB64 token).drop ((decodeB64 token).length - 32)
      = prims.hmacSha256 f.signKey ((decodeB64 token).take ((decodeB64 token).length - 32))

instance (prims : CipherPrims) (f : Fernet) (token : Bytes) :
    Decidable (fernetTokenAuthenticates prims f token) :=
  inferInstanceAs (Decidable (57 ≤ (decodeB64 token).length
    ∧ (decodeB64 token).head? = some 128
    ∧ (decodeB64 token).drop ((decodeB64 token).length - 32)
        = prims.hmacSha256 f.signKey ((decodeB64 token).take ((decodeB64 token).length - 32))))

def testPrims : CipherPrims where
  hmacSha256 k m :=
    List.replicate 32 ((k.foldl (· + ·) 0 + m.foldl (fun a b => a * 3 + b) 1) % 256)
  hmac_length := by
    intro k m
    simp
  hmac_lt := by
    intro k m b hb
    have := List.eq_of_mem_replicate hb
    omega
  aesCbcEnc _ _ p := p
  aesCbcDec _ _ c := c
  aes_dec_enc := fun _ _ _ => rfl
  aes_enc_length := fun _ _ _ => rfl
  aes_enc_lt := fun _ _ _ h => h

/-- A concrete constructed instance (arbitrary key material). -/
def testD : DataEncryption := ⟨[107, 101, 121], encodeB64 (List.replicate 32 1)⟩

/-! ### Theorems -/

/-- C6: `is_expired created_at category now` is true iff
`now > created_at + retention_period category` (strict comparison), and at
the `ACTIVITY_LOGS` boundary: `created_at = now - 91 days` gives `true`,
`now - 89 days` gives `false`, and exactly `now - 90 days` gives `false`. -/
theorem is_expired_iff_strict (created_at now : Int) (category : DataCategory) :
    (is_expired created_at category now = true ↔
      now > created_at + get_retention_period category)
    ∧ is_expired (now - timedeltaDays 91) .activity_logs now = true
    ∧ is_expired (now - timedeltaDays 89) .activity_logs now = false
    ∧ is_expired (now - timedeltaDays 90) .activity_logs now = false := by
  refine ⟨decide_eq_true_iff, ?_, ?_, ?_⟩ <;>
    · simp only [is_expired, get_retention_period, RETENTION_PERIODS, timedeltaDays,
        Option.getD_some, decide_eq_true_eq, decide_eq_false_iff_not, not_lt, gt_iff_lt]
      omega

/-- C7: a category missing from the retention table (and in particular
`archived_data`, the only such category) falls back to the default 365-day
duration, and `get_retention_period` is total: it yields a duration for
every category rather than failing. -/
theorem get_retention_period_default (category : DataCategory)
    (h : RETENTION_PERIODS category = none) :
    get_retention_period category = timedeltaDays 365
    ∧ get_retention_period .archived_data = timedeltaDays 365
    ∧ ∀ c : DataCategory, ∃ d : Int, get_retention_period c = d :=
  ⟨by simp [get_retention_period, h],
   by simp [get_retention_period, RETENTION_PERIODS],
   fun c => ⟨get_retention_period c, rfl⟩⟩

/-- Witness for C7 at the concrete unmapped category `archived_data`. -/
theorem get_retention_period_default_witness :
    RETENTION_PERIODS .archived_data = none
    ∧ (get_retention_period .archived_data = timedeltaDays 365
       ∧ get_retention_period .archived_data = timedeltaDays 365
       ∧ ∀ c : DataCategory, ∃ d : Int, get_retention_period c = d) :=
  ⟨rfl, get_retention_period_default .archived_data rfl⟩

/-- C9: `delete_expired_data` with `dry_run = true` leaves the manager state
(in particular `deletion_log`) unchanged and returns the number of expired
matches reported by `scan_expired_data`. -/
theorem delete_expired_data_dry_run (m : DataRetentionManager)
    (category : DataCategory) (now : Int) :
    (delete_expired_data m category now true).1 = m
    ∧ (delete_expired_data m category now true).2
        = (scan_expired_data m category).length :=
  ⟨rfl, rfl⟩

theorem b64val_b64char : ∀ n < 64, b64val (b64char n) = n := by decide

theorem b64char_ne_61 (n : Nat) : b64char n ≠ 61 := by
  unfold b64char
  split_ifs <;> omega

/-- Base64 decoding inverts encoding on well-formed byte strings. -/
theorem decodeB64_encodeB64 : ∀ l : Bytes, (∀ b ∈ l, b < 256) →
    decodeB64 (encodeB64 l) = l := by
  intro l
  induction l using encodeB64.induct with
  | case1 => intro _; rfl
  | case2 a =>
    intro h
    have ha : a < 256 := h a (by simp)
    have e1 : b64val (b64char (a / 4)) = a / 4 := b64val_b64char _ (by omega)
    have e2 : b64val (b64char (a % 4 * 16)) = a % 4 * 16 := b64val_b64char _ (by omega)
    simp only [encodeB64, decodeB64, eq_self_iff_true, if_true, e1, e2,
      List.cons.injEq, and_true]
    omega
  | case3 a b =>
    intro h
    have ha : a < 256 := h a (by simp)
    have hb : b < 256 := h b (by simp)
    have e1 : b64val (b64char (a / 4)) = a / 4 := b64val_b64char _ (by omega)
    have e2 : b64val (b64char (a % 4 * 16 + b / 16)) = a % 4 * 16 + b / 16 :=
      b64val_b64char _ (by omega)
    have e3 : b64val (b64char (b % 16 * 4)) = b % 16 * 4 := b64val_b64char _ (by omega)
    simp only [encodeB64, decodeB64, eq_false (b64char_ne_61 _), if_false,
      eq_self_iff_true, if_true, e1, e2, e3, List.cons.injEq, and_true]
    omega
  | case4 a b c rest ih =>
    intro h
    have ha : a < 256 := h a (by simp)
    have hb : b < 256 := h b (by simp)
    have hc : c < 256 := h c (by simp)
    have e1 : b64val (b64char (a / 4)) = a / 4 := b64val_b64char _ (by omega)
    have e2 : b64val (b64char (a % 4 * 16 + b / 16)) = a % 4 * 16 + b / 16 :=
      b64val_b64char _ (by omega)
    have e3 : b64val (b64char (b % 16 * 4 + c / 64)) = b % 16 * 4 + c / 64 :=
      b64val_b64char _ (by omega)
    have e4 : b64val (b64char (c % 64)) = c % 64 := b64val_b64char _ (by omega)
    have hrest := ih (fun x hx => h x (by simp [hx]))
    simp only [encodeB64, decodeB64, eq_false (b64char_ne_61 _), if_false,
      e1, e2, e3, e4, List.cons.injEq, hrest, and_true]
    omega

theorem encodeB64_ne_nil (a : Nat) (l : Bytes) : encodeB64 (a :: l) ≠ [] := by
  match l with
  | [] => simp [encodeB64]
  | [_] => simp [encodeB64]
  | _ :: _ :: _ => simp [encodeB64]

theorem unpad16_pad16 (msg : Bytes) : unpad16 (pad16 msg) = some msg := by
  have hk1 : 1 ≤ 16 - msg.length % 16 := by omega
  have hlast : (pad16 msg).getLast? = some (16 - msg.length % 16) := by
    rw [pad16, List.getLast?_append, List.getLast?_replicate, if_neg (by omega)]
    rfl
  have hlen : (pad16 msg).length = msg.length + (16 - msg.length % 16) := by
    simp [pad16]
  have hcond : 1 ≤ 16 - msg.length % 16 ∧ 16 - msg.length % 16 ≤ 16 ∧
      16 - msg.length % 16 ≤ (pad16 msg).length ∧
      ∀ b ∈ (pad16 msg).drop ((pad16 msg).length - (16 - msg.length % 16)),
        b = 16 - msg.length % 16 := by
    refine ⟨hk1, by omega, by omega, ?_⟩
    intro b hb
    rw [hlen, Nat.add_sub_cancel, pad16, List.drop_left] at hb
    exact List.eq_of_mem_replicate hb
  simp only [unpad16, hlast]
  rw [if_pos hcond, hlen, Nat.add_sub_cancel, pad16, List.take_left]

theorem pad16_length (msg : Bytes) :
    (pad16 msg).length = msg.length + (16 - msg.length % 16) := by
  simp [pad16]

theorem pad16_lt (msg : Bytes) (h : ∀ b ∈ msg, b < 256) :
    ∀ b ∈ pad16 msg, b < 256 := by
  intro b hb
  rcases List.mem_append.mp hb with hm | hr
  · exact h b hm
  · have := List.eq_of_mem_replicate hr
    omega

theorem intToBe8_length (n : Nat) : (intToBe8 n).length = 8 := rfl

theorem intToBe8_lt (n : Nat) : ∀ b ∈ intToBe8 n, b < 256 := by
  intro b hb
  simp only [intToBe8, List.mem_cons, List.not_mem_nil, or_false] at hb
  rcases hb with rfl | rfl | rfl | rfl | rfl | rfl | rfl | rfl <;> omega

/-- Decoding an encrypted token recovers its raw bytes. -/
theorem fernet_data_eq (prims : CipherPrims) (f : Fernet) (ts : Nat) (iv msg : Bytes)
    (hivb : ∀ b ∈ iv, b < 256) (hmsgb : ∀ b ∈ msg, b < 256) :
    decodeB64 (Fernet.encryptAt prims f ts iv msg)
      = (128 :: (intToBe8 ts ++ (iv ++ prims.aesCbcEnc f.encKey iv (pad16 msg))))
        ++ prims.hmacSha256 f.signKey
            (128 :: (intToBe8 ts ++ (iv ++ prims.aesCbcEnc f.encKey iv (pad16 msg)))) := by
  apply decodeB64_encodeB64
  intro b hb
  rcases List.mem_append.mp hb with h | h
  · rcases List.mem_cons.mp h with rfl | h
    · omega
    rcases List.mem_append.mp h with h | h
    · exact intToBe8_lt ts b h
    rcases List.mem_append.mp h with h | h
    · exact hivb b h
    · exact prims.aes_enc_lt _ _ _ (pad16_lt msg hmsgb) b h
  · exact prims.hmac_lt _ _ b h

/-- The nonce is embedded verbatim at offset 9 of the decoded token. -/
theorem fernet_token_iv (prims : CipherPrims) (f : Fernet) (ts : Nat) (iv msg : Bytes)
    (hiv : iv.length = 16) (hivb : ∀ b ∈ iv, b < 256) (hmsgb : ∀ b ∈ msg, b < 256) :
    ((decodeB64 (Fernet.encryptAt prims f ts iv msg)).drop 9).take 16 = iv := by
  rw [fernet_data_eq prims f ts iv msg hivb hmsgb]
  set ct := prims.aesCbcEnc f.encKey iv (pad16 msg) with hct
  set tag := prims.hmacSha256 f.signKey (128 :: (intToBe8 ts ++ (iv ++ ct))) with htag
  have hassoc : (128 :: (intToBe8 ts ++ (iv ++ ct))) ++ tag
      = (128 :: intToBe8 ts) ++ (iv ++ (ct ++ tag)) := by
    simp [List.cons_append, List.append_assoc]
  rw [hassoc, List.drop_left' (by simp [intToBe8_length]), List.take_left' hiv]

/-- Fernet round trip: decrypting a token under the key that produced it
recovers the message. -/
theorem fernet_round_trip (prims : CipherPrims) (f : Fernet) (ts : Nat) (iv msg : Bytes)
    (hiv : iv.length = 16) (hivb : ∀ b ∈ iv, b < 256) (hmsgb : ∀ b ∈ msg, b < 256) :
    Fernet.decrypt? prims f (Fernet.encryptAt prims f ts iv msg) = some msg := by
  have hdata := fernet_data_eq prims f ts iv msg hivb hmsgb
  set ct := prims.aesCbcEnc f.encKey iv (pad16 msg) with hct
  set core := (128 :: (intToBe8 ts ++ (iv ++ ct)) : Bytes) with hcore
  set tag := prims.hmacSha256 f.signKey core with htag
  have hctlen : ct.length = (pad16 msg).length := prims.aes_enc_length _ _ _
  have hcorelen : core.length = 25 + ct.length := by
    rw [hcore]
    simp [intToBe8_length, hiv]
    omega
  have htaglen : tag.length = 32 := prims.hmac_length _ _
  have hdlen : (core ++ tag).length = core.length + 32 := by
    simp [htaglen]
  have htake : (core ++ tag).take ((core ++ tag).length - 32) = core :=
    List.take_left' (by omega)
  have hdrop : (core ++ tag).drop ((core ++ tag).length - 32) = tag :=
    List.drop_left' (by omega)
  have hassoc9 : core ++ tag = (128 :: intToBe8 ts) ++ (iv ++ (ct ++ tag)) := by
    rw [hcore]
    simp [List.cons_append, List.append_assoc]
  have hassoc25 : core ++ tag = (128 :: (intToBe8 ts ++ iv)) ++ (ct ++ tag) := by
    rw [hcore]
    simp [List.cons_append, List.append_assoc]
  have hiv_ex : ((core ++ tag).drop 9).take 16 = iv := by
    rw [hassoc9, List.drop_left' (by simp [intToBe8_length]), List.take_left' hiv]
  have hct_ex : ((core ++ tag).drop 25).take ((core ++ tag).length - 57) = ct := by
    rw [show (core ++ tag).length - 57 = ct.length from by omega]
    rw [hassoc25, List.drop_left' (by simp [intToBe8_length, hiv]), List.take_left' rfl]
  have hhead : (core ++ tag).head? = some 128 := by
    rw [hcore]
    rfl
  have hcond : 57 ≤ (core ++ tag).length ∧ (core ++ tag).head? = some 128 ∧
      (core ++ tag).drop ((core ++ tag).length - 32)
        = prims.hmacSha256 f.signKey ((core ++ tag).take ((core ++ tag).length - 32)) := by
    refine ⟨by omega, hhead, ?_⟩
    rw [hdrop, htake, htag]
  simp only [Fernet.decrypt?]
  rw [hdata, if_pos hcond, hiv_ex, hct_ex, hct, prims.aes_dec_enc]
  exact unpad16_pad16 msg

theorem isEmpty_false_of_ne_nil {l : Bytes} (h : l ≠ []) : l.isEmpty = false := by
  cases l with
  | nil => exact absurd rfl h
  | cons a t => rfl

theorem encrypt_nonempty_eq (prims : CipherPrims) (d : DataEncryption) (ts : Nat)
    (iv s : Bytes) (hs : s ≠ []) :
    DataEncryption.encrypt prims d ts iv s
      = Fernet.encryptAt prims (Fernet.ofKey d.fernetKey) ts iv s := by
  have hsE : ¬ (s.isEmpty = true) := by
    rw [isEmpty_false_of_ne_nil hs]
    exact Bool.false_ne_true
  simp only [DataEncryption.encrypt]
  rw [if_neg hsE]

theorem encryptAt_ne_nil (prims : CipherPrims) (f : Fernet) (ts : Nat)
    (iv msg : Bytes) : Fernet.encryptAt prims f ts iv msg ≠ [] := by
  simp only [Fernet.encryptAt]
  rw [List.cons_append]
  exact encodeB64_ne_nil _ _

/-- C1: for every non-empty plaintext `s`, decrypting the result of
encrypting `s` with the same `DataEncryption` instance (same key) returns
`s`, for any nonce and timestamp drawn during encryption. -/
theorem decrypt_encrypt_round_trip (prims : CipherPrims) (d : DataEncryption)
    (ts : Nat) (iv s : Bytes) (hs : s ≠ []) (hsb : ∀ b ∈ s, b < 256)
    (hiv : iv.length = 16) (hivb : ∀ b ∈ iv, b < 256) :
    DataEncryption.decrypt prims d (DataEncryption.encrypt prims d ts iv s)
      = Except.ok s := by
  rw [encrypt_nonempty_eq prims d ts iv s hs]
  have hne := encryptAt_ne_nil prims (Fernet.ofKey d.fernetKey) ts iv s
  have hneE : ¬ ((Fernet.encryptAt prims (Fernet.ofKey d.fernetKey) ts iv s).isEmpty = true) := by
    rw [isEmpty_false_of_ne_nil hne]
    exact Bool.false_ne_true
  simp only [DataEncryption.decrypt]
  rw [if_neg hneE, fernet_round_trip prims (Fernet.ofKey d.fernetKey) ts iv s hiv hivb hsb]

/-- Witness for C1 at a concrete plaintext, nonce and instance. -/
theorem decrypt_encrypt_round_trip_witness :
    ([104, 105] : Bytes) ≠ [] ∧ (∀ b ∈ ([104, 105] : Bytes), b < 256)
    ∧ (List.range 16).length = 16 ∧ (∀ b ∈ List.range 16, b < 256)
    ∧ DataEncryption.decrypt testPrims testD
        (DataEncryption.encrypt testPrims testD 0 (List.range 16) [104, 105])
        = Except.ok [104, 105] :=
  ⟨by decide, by decide, by decide, by decide,
   decrypt_encrypt_round_trip testPrims testD 0 (List.range 16) [104, 105]
     (by decide) (by decide) (by decide) (by decide)⟩

/-- C2: `encrypt` of the empty string is the empty string and `decrypt` of
the empty string is the empty string; both short-circuit without error. -/
theorem encrypt_decrypt_empty (prims : CipherPrims) (d : DataEncryption)
    (ts : Nat) (iv : Bytes) :
    DataEncryption.encrypt prims d ts iv [] = []
    ∧ DataEncryption.decrypt prims d [] = Except.ok [] :=
  ⟨rfl, rfl⟩

/-- C3: a non-empty token that fails Fernet authentication — one not
produced under the matching key, or a tampered one, is exactly a token
whose recomputed HMAC tag (or format) does not verify — makes `decrypt`
fail with the `DecryptionError` authentication failure; it never returns a
plaintext for such input. -/
theorem decrypt_rejects_unauthenticated (prims : CipherPrims) (d : DataEncryption)
    (token : Bytes) (hne : token ≠ [])
    (hauth : ¬ fernetTokenAuthenticates prims (Fernet.ofKey d.fernetKey) token) :
    DataEncryption.decrypt prims d token = Except.error DecryptionError.invalidToken := by
  have hneE : ¬ (token.isEmpty = true) := by
    rw [isEmpty_false_of_ne_nil hne]
    exact Bool.false_ne_true
  have hauth' : ¬ (57 ≤ (decodeB64 token).length
      ∧ (decodeB64 token).head? = some 128
      ∧ (decodeB64 token).drop ((decodeB64 token).length - 32)
          = prims.hmacSha256 (Fernet.ofKey d.fernetKey).signKey
              ((decodeB64 token).take ((decodeB64 token).length - 32))) := hauth
  have hdec : Fernet.decrypt? prims (Fernet.ofKey d.fernetKey) token = none := by
    simp only [Fernet.decrypt?]
    rw [if_neg hauth']
  simp only [DataEncryption.decrypt]
  rw [if_neg hneE, hdec]

/-- Witness for C3 at a concrete malformed token. -/
theorem decrypt_rejects_unauthenticated_witness :
    ([65] : Bytes) ≠ []
    ∧ ¬ fernetTokenAuthenticates testPrims (Fernet.ofKey testD.fernetKey) [65]
    ∧ DataEncryption.decrypt testPrims testD [65]
        = Except.error DecryptionError.invalidToken :=
  ⟨by decide, by decide,
   decrypt_rejects_unauthenticated testPrims testD [65] (by decide) (by decide)⟩

/-- C4: with an absent or empty explicit key argument and an absent or
empty `ENCRYPTION_KEY` environment value, construction fails with the
configuration error; since no instance is produced, no encrypt or decrypt
call can ever run, so the failure cannot be deferred to first use. -/
theorem init_missing_key (prims : CipherPrims) (arg env : Option Bytes)
    (harg : arg = none ∨ arg = some []) (henv : env = none ∨ env = some []) :
    DataEncryption.init prims arg env = Except.error ConfigurationError.missingKey := by
  rcases harg with rfl | rfl <;> rcases henv with rfl | rfl <;> rfl

/-- Witness for C4 with both sources absent. -/
theorem init_missing_key_witness :
    ((none : Option Bytes) = none ∨ (none : Option Bytes) = some [])
    ∧ ((none : Option Bytes) = none ∨ (none : Option Bytes) = some [])
    ∧ DataEncryption.init testPrims none none
        = Except.error ConfigurationError.missingKey :=
  ⟨Or.inl rfl, Or.inl rfl, init_missing_key testPrims none none (Or.inl rfl) (Or.inl rfl)⟩

/-- C5: key derivation is the deterministic pure function
PBKDF2-HMAC-SHA256 over the passphrase and the fixed salt
`journeyman_salt` with 100000 iterations, whose pre-encoding output has
exactly 32 bytes, base64-url-safe encoded; two constructions from the
same passphrase carry bit-identical key material. -/
theorem deriveFernetKey_deterministic (prims : CipherPrims) (p : Bytes) :
    deriveFernetKey prims p
      = encodeB64 (pbkdf2 prims.hmacSha256 p journeymanSalt 100000 32)
    ∧ (pbkdf2 prims.hmacSha256 p journeymanSalt 100000 32).length = 32
    ∧ ∀ d1 d2 : DataEncryption,
        DataEncryption.init prims (some p) none = Except.ok d1 →
        DataEncryption.init prims (some p) none = Except.ok d2 →
        d1.fernetKey = d2.fernetKey := by
  refine ⟨rfl, ?_, ?_⟩
  · have hU : ∀ j, (pbkdf2U prims.hmacSha256 p journeymanSalt j).length = 32 := by
      intro j
      cases j with
      | zero => exact prims.hmac_length _ _
      | succ j => exact prims.hmac_length _ _
    have hfold : ∀ (l : List Nat) (acc : Bytes), acc.length = 32 →
        (l.foldl (fun acc j => xorBytes acc (pbkdf2U prims.hmacSha256 p journeymanSalt j))
          acc).length = 32 := by
      intro l
      induction l with
      | nil => intro acc h; exact h
      | cons j l ih =>
        intro acc h
        apply ih
        simp only [xorBytes, List.length_zipWith, h, hU j]
        omega
    rw [pbkdf2, List.length_take, hfold (List.range 100000) _ (by simp)]
    omega
  · intro d1 d2 h1 h2
    rw [h1] at h2
    rw [Except.ok.inj h2]

/-- C8: two encryptions of the same non-empty plaintext under the same key
but distinct nonces yield distinct ciphertext tokens, because the fresh
nonce is embedded verbatim in the token. -/
theorem encrypt_distinct_nonces (prims : CipherPrims) (d : DataEncryption)
    (ts1 ts2 : Nat) (iv1 iv2 s : Bytes) (hs : s ≠ []) (hsb : ∀ b ∈ s, b < 256)
    (h1 : iv1.length = 16) (h1b : ∀ b ∈ iv1, b < 256)
    (h2 : iv2.length = 16) (h2b : ∀ b ∈ iv2, b < 256) (hne : iv1 ≠ iv2) :
    DataEncryption.encrypt prims d ts1 iv1 s
      ≠ DataEncryption.encrypt prims d ts2 iv2 s := by
  intro heq
  apply hne
  rw [encrypt_nonempty_eq prims d ts1 iv1 s hs,
    encrypt_nonempty_eq prims d ts2 iv2 s hs] at heq
  have hivs := congrArg (fun t => ((decodeB64 t).drop 9).take 16) heq
  simp only at hivs
  rwa [fernet_token_iv prims _ ts1 iv1 s h1 h1b hsb,
    fernet_token_iv prims _ ts2 iv2 s h2 h2b hsb] at hivs

/-- Witness for C8 at two concrete distinct nonces. -/
theorem encrypt_distinct_nonces_witness :
    ([104, 105] : Bytes) ≠ [] ∧ List.range 16 ≠ List.replicate 16 0
    ∧ DataEncryption.encrypt testPrims testD 0 (List.range 16) [104, 105]
        ≠ DataEncryption.encrypt testPrims testD 0 (List.replicate 16 0) [104, 105] :=
  ⟨by decide, by decide,
   encrypt_distinct_nonces testPrims testD 0 0 (List.range 16) (List.replicate 16 0)
     [104, 105] (by decide) (by decide) (by decide) (by decide) (by decide) (by decide)
     (by decide)⟩

/-- C10: a present non-empty explicit key argument alone determines the
constructed instance, whatever the environment value holds, and the result
carries exactly that argument's bytes and their derived key. -/
theorem init_explicit_key_ignores_env (prims : CipherPrims) (k : Bytes)
    (env env2 : Option Bytes) (hk : k ≠ []) :
    DataEncryption.init prims (some k) env = DataEncryption.init prims (some k) env2
    ∧ DataEncryption.init prims (some k) env
        = Except.ok ⟨k, deriveFernetKey prims k⟩ := by
  have hkE : k.isEmpty = false := isEmpty_false_of_ne_nil hk
  constructor <;> simp [DataEncryption.init, hkE]

/-- Witness for C10 at a concrete key and two environments. -/
theorem init_explicit_key_ignores_env_witness :
    ([107] : Bytes) ≠ []
    ∧ (DataEncryption.init testPrims (some [107]) none
        = DataEncryption.init testPrims (some [107]) (some [9])
       ∧ DataEncryption.init testPrims (some [107]) none
        = Except.ok ⟨[107], deriveFernetKey testPrims [107]⟩) :=
  ⟨by decide, init_explicit_key_ignores_env testPrims [107] none (some [9]) (by decide)⟩


end Journeyman
